import Mathlib

/-!
# Verification of the `prefixtrie` Go package (`prefix_trie.go`)

Strings are modelled as lists of code points (`List Char`), which matches the
source's stated assumption of valid UTF-8 input: `commonPrefix` compares and
advances code point by code point, every stored label is a code-point-aligned
slice of an inserted key, and rune comparisons are code-point comparisons.
Go's `utf8.DecodeRuneInString` on an empty string yields `utf8.RuneError`
(U+FFFD), which `firstRune` mirrors.  The string slice
`prefix[len(n.prefix):]` in `(node).find` is a runtime panic in Go whenever
`len(prefix) < len(n.prefix)`; the embedding models this failure mode by
returning `none`.
-/

set_option maxHeartbeats 1000000

open scoped List

/-- Embeds `(*node).firstRune`: the first code point of a string, or
`utf8.RuneError` (U+FFFD) for the empty string. -/
def firstRune (s : List Char) : Char := s.headD (Char.ofNat 0xFFFD)

/-- Embeds `(*node).commonPrefix`: the longest leading run of code points
that the two strings have in common (the Go loop advances rune by rune and
stops at the first mismatch or at the end of the shorter string). -/
def commonPfx : List Char → List Char → List Char
  | a :: as', b :: bs' => if a = b then a :: commonPfx as' bs' else []
  | _, _ => []

theorem commonPfx_pfx_left : ∀ a b : List Char, commonPfx a b <+: a := by
  intro a
  induction a with
  | nil => intro b; cases b <;> simp [commonPfx]
  | cons x as' ih =>
    intro b
    cases b with
    | nil => simp [commonPfx]
    | cons y bs' =>
      by_cases h : x = y
      · simpa [commonPfx, h] using ih bs'
      · simp [commonPfx, h]

theorem commonPfx_pfx_right : ∀ a b : List Char, commonPfx a b <+: b := by
  intro a
  induction a with
  | nil => intro b; cases b <;> simp [commonPfx]
  | cons x as' ih =>
    intro b
    cases b with
    | nil => simp [commonPfx]
    | cons y bs' =>
      by_cases h : x = y
      · subst h
        simpa [commonPfx] using ih bs'
      · simp [commonPfx, h]

theorem commonPfx_length_le_left (a b : List Char) :
    (commonPfx a b).length ≤ a.length :=
  (commonPfx_pfx_left a b).length_le

theorem commonPfx_length_le_right (a b : List Char) :
    (commonPfx a b).length ≤ b.length :=
  (commonPfx_pfx_right a b).length_le

/-- `commonPfx` is maximal: if it is strictly shorter than both arguments,
the first code points after it in the two arguments differ. -/
theorem commonPfx_head_ne : ∀ a b : List Char,
    (commonPfx a b).length < a.length → (commonPfx a b).length < b.length →
    firstRune (a.drop (commonPfx a b).length) ≠
      firstRune (b.drop (commonPfx a b).length) := by
  intro a
  induction a with
  | nil => intro b h1 _; simp [commonPfx] at h1
  | cons x as' ih =>
    intro b h1 h2
    cases b with
    | nil => simp [commonPfx] at h2
    | cons y bs' =>
      by_cases h : x = y
      · subst h
        have h1' : (commonPfx as' bs').length < as'.length := by
          simpa [commonPfx] using h1
        have h2' : (commonPfx as' bs').length < bs'.length := by
          simpa [commonPfx] using h2
        simpa [commonPfx] using ih bs' h1' h2'
      · simp [commonPfx, h, firstRune]

/-- Embeds the Go `node` struct: an edge label (`prefix` in the source,
`pfx` here), the values terminating exactly at this node, and the ordered
children. -/
inductive node : Type
  | mk : List Char → List Int → List node → node

def node.pfx : node → List Char
  | node.mk p _ _ => p

def node.values : node → List Int
  | node.mk _ vs _ => vs

def node.children : node → List node
  | node.mk _ _ cs => cs

instance : Inhabited node := ⟨node.mk [] [] []⟩

mutual

/-- Embeds `(*node).add`.  The source first splits the node when the common
prefix is strictly shorter than the label (`(*node).split` relocates the
label remainder, the values and the children into a single child, in place),
then either appends the value (common prefix consumes the whole key) or
inserts the key remainder among the children in ascending first-rune order.
In the split case the children list is the singleton holding the relocated
node, so the source's sorted-add loop over it is spelled out here over that
singleton; its recursive branch is unreachable because `commonPfx` is
maximal (the relocated label and the key remainder start with different
code points), which is also what makes the recursion well-founded. -/
def node.add : node → List Char → Int → node
  | node.mk p vs cs, key, value =>
    let cp := commonPfx p key
    if hs : cp.length < p.length then
      let reloc : node := node.mk (p.drop cp.length) vs cs
      if hk : cp.length = key.length then
        node.mk cp [value] [reloc]
      else
        let subKey := key.drop cp.length
        if heq : firstRune (node.pfx reloc) = firstRune subKey then
          node.mk cp [] [node.add reloc subKey value]
        else if firstRune (node.pfx reloc) > firstRune subKey then
          node.mk cp [] [node.mk subKey [value] [], reloc]
        else
          node.mk cp [] [reloc, node.mk subKey [value] []]
    else
      if cp.length = key.length then
        node.mk p (vs ++ [value]) cs
      else
        node.mk p vs (addToChildren cs (key.drop cp.length) value)
termination_by n _ _ => sizeOf n
decreasing_by
  · exfalso
    simp only [node.pfx] at heq
    have hlt : (commonPfx p key).length < key.length :=
      lt_of_le_of_ne (commonPfx_length_le_right p key) hk
    exact commonPfx_head_ne p key hs hlt heq
  · simp

/-- Embeds the `for i := range n.children` sorted-add loop of `(*node).add`
together with `(*node).insertChildAtIndex` (which inserts at index `i`
shifting the rest) and the trailing append for the not-found case. -/
def addToChildren : List node → List Char → Int → List node
  | [], subKey, value => [node.mk subKey [value] []]
  | c :: rest, subKey, value =>
    if firstRune (node.pfx c) = firstRune subKey then
      node.add c subKey value :: rest
    else if firstRune (node.pfx c) > firstRune subKey then
      node.mk subKey [value] [] :: c :: rest
    else
      c :: addToChildren rest subKey value
termination_by cs _ _ => sizeOf cs
decreasing_by
  · simp
    omega
  · simp

end

mutual

/-- Embeds `(node).collectValues`: appends the node's values to `dst`, then
collects every child's subtree in order. -/
def node.collectValues : node → List Int → List Int
  | node.mk _ vs cs, dst => collectList cs (dst ++ vs)

/-- The `for _, c := range n.children` loop of `(node).collectValues`. -/
def collectList : List node → List Int → List Int
  | [], dst => dst
  | c :: rest, dst => collectList rest (node.collectValues c dst)

end

mutual

/-- Specification device (not in the source): the list of
(full path from this node, value) occurrences stored in a subtree, listed in
the exact order `collectValues` emits them. -/
def node.occs : node → List (List Char × Int)
  | node.mk p vs cs =>
    vs.map (fun v => (p, v)) ++ (occsList cs).map (fun e => (p ++ e.1, e.2))

/-- `node.occs` accumulated over a list of children. -/
def occsList : List node → List (List Char × Int)
  | [] => []
  | c :: rest => node.occs c ++ occsList rest

end

mutual

/-- Specification device (not in the source): the structural invariant the
source maintains: children are strictly ascending by the first rune of
their labels (I1), every child's label is nonempty, and the same holds
recursively. -/
def nodeOk : node → Prop
  | node.mk _ _ cs =>
    List.Pairwise (fun a b => firstRune (node.pfx a) < firstRune (node.pfx b)) cs ∧
    (∀ c ∈ cs, node.pfx c ≠ []) ∧ nodeOkList cs

/-- `nodeOk` for every node of a list of children. -/
def nodeOkList : List node → Prop
  | [] => True
  | c :: rest => nodeOk c ∧ nodeOkList rest

end

theorem getD_mem_of_lt : ∀ (l : List node) (i : Nat), i < l.length →
    l.getD i default ∈ l := by
  intro l
  induction l with
  | nil => intro i h; simp at h
  | cons c rest ih =>
    intro i h
    cases i with
    | zero => simp [List.getD_cons_zero]
    | succ j =>
      have hj : j < rest.length := by simpa using h
      simpa [List.getD_cons_succ] using Or.inr (ih j hj)

/-- Embeds the inlined `sort.Search` loop of `(node).find`: binary search
for the leftmost child whose label's first rune is not below `fr`. -/
def searchLoop (cs : List node) (fr : Char) (lo hi : Nat) : Nat :=
  if lo < hi then
    let mid := lo + (hi - lo) / 2
    if firstRune (node.pfx (cs.getD mid default)) < fr then
      searchLoop cs fr (mid + 1) hi
    else
      searchLoop cs fr lo mid
  else lo
termination_by hi - lo
decreasing_by
  · omega
  · omega

/-- Embeds `(node).find`.  Where the Go code would evaluate the slice
`prefix[len(n.prefix):]` with `len(prefix) < len(n.prefix)` — a runtime
panic ("slice bounds out of range") — the embedding returns `none`; every
normal return of the source is `some`. -/
def node.find : node → List Int → List Char → Option (List Int)
  | node.mk p vs cs, dst, q =>
    if q.isPrefixOf p then
      some (node.collectValues (node.mk p vs cs) dst)
    else if p.length ≤ q.length then
      let subQ := q.drop p.length
      let fr := firstRune subQ
      let lo := searchLoop cs fr 0 cs.length
      if hlo : lo < cs.length then
        if firstRune (node.pfx (cs.getD lo default)) = fr then
          node.find (cs.getD lo default) dst subQ
        else some dst
      else some dst
    else none
termination_by n _ _ => sizeOf n
decreasing_by
  · have hmem := getD_mem_of_lt cs (searchLoop cs
      (firstRune (q.drop p.length)) 0 cs.length) hlo
    have hsz := List.sizeOf_lt_of_mem hmem
    simp at hsz ⊢
    omega

/-- Embeds the `Trie` struct. -/
structure Trie where
  root : node

/-- The Go zero value of `Trie`: a root node with empty label, no values
and no children ("A zero value Trie is ready to use"). -/
def Trie.zero : Trie := ⟨node.mk [] [] []⟩

/-- The `for i := range key` loop of `(*Trie).Add`: inserts every
code-point-offset suffix of `key` (the loop variable ranges over rune start
positions, so the empty suffix is never inserted and an empty key inserts
nothing). -/
def addSuffixes : node → List Char → Int → node
  | n, [], _ => n
  | n, c :: rest, value => addSuffixes (node.add n (c :: rest) value) rest value

/-- Embeds `(*Trie).Add`. -/
def Trie.Add (t : Trie) (key : List Char) (value : Int) : Trie :=
  ⟨addSuffixes t.root key value⟩

/-- Embeds `(*Trie).Find`. -/
def Trie.Find (t : Trie) (dst : List Int) (q : List Char) : Option (List Int) :=
  node.find t.root dst q

/-- A trie built from the zero value by a sequence of `Add` calls. -/
def buildTrie (ops : List (List Char × Int)) : Trie :=
  ops.foldl (fun t e => Trie.Add t e.1 e.2) Trie.zero

/-! ## Induction principle and shape lemmas -/

/-- Strong induction over the nested `node` type: to prove a property of a
node it suffices to prove it from the property of all its children. -/
theorem node.strongRec (P : node → Prop)
    (ind : ∀ p vs cs, (∀ c ∈ cs, P c) → P (node.mk p vs cs)) : ∀ n, P n
  | node.mk p vs cs => ind p vs cs (fun c hc => node.strongRec P ind c)
termination_by n => sizeOf n
decreasing_by
  have := List.sizeOf_lt_of_mem hc
  simp
  omega

theorem commonPfx_append_drop_left (a b : List Char) :
    commonPfx a b ++ a.drop (commonPfx a b).length = a :=
  List.prefix_iff_eq_append.mp (commonPfx_pfx_left a b)

theorem commonPfx_append_drop_right (a b : List Char) :
    commonPfx a b ++ b.drop (commonPfx a b).length = b :=
  List.prefix_iff_eq_append.mp (commonPfx_pfx_right a b)

theorem commonPfx_eq_left (a b : List Char)
    (h : ¬ (commonPfx a b).length < a.length) : commonPfx a b = a :=
  (commonPfx_pfx_left a b).eq_of_length
    (le_antisymm (commonPfx_length_le_left a b) (le_of_not_lt h))

theorem commonPfx_eq_right (a b : List Char)
    (h : (commonPfx a b).length = b.length) : commonPfx a b = b :=
  (commonPfx_pfx_right a b).eq_of_length h

theorem add_eq_split_values (p : List Char) (vs : List Int) (cs : List node)
    (key : List Char) (value : Int)
    (hs : (commonPfx p key).length < p.length)
    (hk : (commonPfx p key).length = key.length) :
    node.add (node.mk p vs cs) key value =
      node.mk (commonPfx p key) [value]
        [node.mk (p.drop (commonPfx p key).length) vs cs] := by
  rw [node.add]
  simp only [dif_pos hs, dif_pos hk]

theorem add_eq_split_before (p : List Char) (vs : List Int) (cs : List node)
    (key : List Char) (value : Int)
    (hs : (commonPfx p key).length < p.length)
    (hk : ¬ (commonPfx p key).length = key.length)
    (hgt : firstRune (key.drop (commonPfx p key).length) <
      firstRune (p.drop (commonPfx p key).length)) :
    node.add (node.mk p vs cs) key value =
      node.mk (commonPfx p key) []
        [node.mk (key.drop (commonPfx p key).length) [value] [],
         node.mk (p.drop (commonPfx p key).length) vs cs] := by
  have hne := commonPfx_head_ne p key hs
    (lt_of_le_of_ne (commonPfx_length_le_right p key) hk)
  rw [node.add]
  simp only [dif_pos hs, dif_neg hk, node.pfx, dif_neg hne, if_pos hgt]

theorem add_eq_split_after (p : List Char) (vs : List Int) (cs : List node)
    (key : List Char) (value : Int)
    (hs : (commonPfx p key).length < p.length)
    (hk : ¬ (commonPfx p key).length = key.length)
    (hlt : firstRune (p.drop (commonPfx p key).length) <
      firstRune (key.drop (commonPfx p key).length)) :
    node.add (node.mk p vs cs) key value =
      node.mk (commonPfx p key) []
        [node.mk (p.drop (commonPfx p key).length) vs cs,
         node.mk (key.drop (commonPfx p key).length) [value] []] := by
  have hne := commonPfx_head_ne p key hs
    (lt_of_le_of_ne (commonPfx_length_le_right p key) hk)
  rw [node.add]
  simp only [dif_pos hs, dif_neg hk, node.pfx, dif_neg hne,
    if_neg (not_lt_of_gt hlt)]

theorem add_eq_values (p : List Char) (vs : List Int) (cs : List node)
    (key : List Char) (value : Int)
    (hs : ¬ (commonPfx p key).length < p.length)
    (hk : (commonPfx p key).length = key.length) :
    node.add (node.mk p vs cs) key value = node.mk p (vs ++ [value]) cs := by
  rw [node.add]
  simp only [dif_neg hs, if_pos hk]

theorem add_eq_children (p : List Char) (vs : List Int) (cs : List node)
    (key : List Char) (value : Int)
    (hs : ¬ (commonPfx p key).length < p.length)
    (hk : ¬ (commonPfx p key).length = key.length) :
    node.add (node.mk p vs cs) key value =
      node.mk p vs (addToChildren cs (key.drop (commonPfx p key).length) value) := by
  rw [node.add]
  simp only [dif_neg hs, if_neg hk]

/-! ## The effect of `add` on the stored occurrences -/

theorem occs_shift (p key : List Char) (vs : List Int) (cs : List node) :
    (node.occs (node.mk (p.drop (commonPfx p key).length) vs cs)).map
      (fun e => (commonPfx p key ++ e.1, e.2)) = node.occs (node.mk p vs cs) := by
  have hp := commonPfx_append_drop_left p key
  have hf1 : ((fun e : List Char × Int => (commonPfx p key ++ e.1, e.2)) ∘
      (fun v : Int => (p.drop (commonPfx p key).length, v))) =
      (fun v : Int => (p, v)) := by
    funext v
    simp only [Function.comp_apply, hp]
  have hf2 : ((fun e : List Char × Int => (commonPfx p key ++ e.1, e.2)) ∘
      (fun e : List Char × Int =>
        (p.drop (commonPfx p key).length ++ e.1, e.2))) =
      (fun e : List Char × Int => (p ++ e.1, e.2)) := by
    funext e
    simp only [Function.comp_apply, ← List.append_assoc, hp]
  simp only [node.occs, List.map_append, List.map_map, hf1, hf2]

theorem addToChildren_occs (subKey : List Char) (value : Int) :
    ∀ cs : List node,
      (∀ c ∈ cs, ∀ key v, node.occs (node.add c key v) ~ (key, v) :: node.occs c) →
      occsList (addToChildren cs subKey value) ~ (subKey, value) :: occsList cs := by
  intro cs
  induction cs with
  | nil =>
    intro _
    simp only [addToChildren, occsList, node.occs, List.map_cons, List.map_nil,
      List.append_nil, List.nil_append]
    exact List.Perm.refl _
  | cons c rest ih =>
    intro H
    by_cases h1 : firstRune (node.pfx c) = firstRune subKey
    · simp only [addToChildren, if_pos h1, occsList]
      calc node.occs (node.add c subKey value) ++ occsList rest
          ~ ((subKey, value) :: node.occs c) ++ occsList rest :=
            (H c (by simp) subKey value).append_right _
        _ = (subKey, value) :: (node.occs c ++ occsList rest) := rfl
    · by_cases h2 : firstRune (node.pfx c) > firstRune subKey
      · simp only [addToChildren, if_neg h1, if_pos h2, occsList, node.occs,
          List.map_cons, List.map_nil, List.append_nil, List.nil_append]
        exact List.Perm.refl _
      · simp only [addToChildren, if_neg h1, if_neg h2, occsList]
        have hrest := ih (fun c' hc' => H c' (by simp [hc']))
        calc node.occs c ++ occsList (addToChildren rest subKey value)
            ~ node.occs c ++ ((subKey, value) :: occsList rest) :=
              List.Perm.append_left _ hrest
          _ ~ (subKey, value) :: (node.occs c ++ occsList rest) :=
              List.perm_middle

theorem add_occs : ∀ n : node, ∀ (key : List Char) (value : Int),
    node.occs (node.add n key value) ~ (key, value) :: node.occs n := by
  intro n
  induction n using node.strongRec with
  | _ p vs cs ih =>
    intro key value
    by_cases hs : (commonPfx p key).length < p.length
    · by_cases hk : (commonPfx p key).length = key.length
      · have hcp : commonPfx p key = key := commonPfx_eq_right p key hk
        rw [add_eq_split_values p vs cs key value hs hk, node.occs]
        rw [show occsList [node.mk (p.drop (commonPfx p key).length) vs cs] =
          node.occs (node.mk (p.drop (commonPfx p key).length) vs cs) from by
            simp [occsList]]
        rw [occs_shift p key vs cs]
        simp only [List.map_cons, List.map_nil, hcp, List.singleton_append]
        exact List.Perm.refl _
      · have hck := commonPfx_append_drop_right p key
        by_cases hgt : firstRune (key.drop (commonPfx p key).length) <
            firstRune (p.drop (commonPfx p key).length)
        · rw [add_eq_split_before p vs cs key value hs hk hgt, node.occs]
          rw [show occsList [node.mk (key.drop (commonPfx p key).length) [value] [],
              node.mk (p.drop (commonPfx p key).length) vs cs] =
            node.occs (node.mk (key.drop (commonPfx p key).length) [value] []) ++
              node.occs (node.mk (p.drop (commonPfx p key).length) vs cs) from by
              simp [occsList]]
          rw [List.map_append, occs_shift p key vs cs]
          simp only [node.occs, List.map_cons, List.map_nil, List.append_nil,
            List.nil_append, List.map_map, List.singleton_append, hck]
          exact List.Perm.refl _
        · have hne := commonPfx_head_ne p key hs
            (lt_of_le_of_ne (commonPfx_length_le_right p key) hk)
          have hlt : firstRune (p.drop (commonPfx p key).length) <
              firstRune (key.drop (commonPfx p key).length) :=
            lt_of_le_of_ne (le_of_not_lt hgt) hne
          rw [add_eq_split_after p vs cs key value hs hk hlt, node.occs]
          rw [show occsList [node.mk (p.drop (commonPfx p key).length) vs cs,
              node.mk (key.drop (commonPfx p key).length) [value] []] =
            node.occs (node.mk (p.drop (commonPfx p key).length) vs cs) ++
              node.occs (node.mk (key.drop (commonPfx p key).length) [value] []) from by
              simp [occsList]]
          rw [List.map_append, occs_shift p key vs cs]
          simp only [node.occs, List.map_cons, List.map_nil, List.append_nil,
            List.nil_append, List.map_map, List.singleton_append, hck]
          calc node.occs (node.mk p vs cs) ++ [(key, value)]
              = node.occs (node.mk p vs cs) ++ (key, value) :: [] := rfl
            _ ~ (key, value) :: (node.occs (node.mk p vs cs) ++ []) :=
              List.perm_middle
            _ = (key, value) :: node.occs (node.mk p vs cs) := by
              rw [List.append_nil]
    · have hcp : commonPfx p key = p := commonPfx_eq_left p key hs
      by_cases hk : (commonPfx p key).length = key.length
      · have hpk : p = key := by
          rw [← hcp]
          exact commonPfx_eq_right p key hk
        rw [add_eq_values p vs cs key value hs hk]
        simp only [node.occs, List.map_append, List.map_cons, List.map_nil]
        calc (vs.map (fun v => (p, v)) ++ [(p, value)]) ++
              (occsList cs).map (fun e => (p ++ e.1, e.2))
            = vs.map (fun v => (p, v)) ++ ((p, value) ::
              (occsList cs).map (fun e => (p ++ e.1, e.2))) := by
              rw [List.append_assoc]
              rfl
          _ ~ (p, value) :: (vs.map (fun v => (p, v)) ++
              (occsList cs).map (fun e => (p ++ e.1, e.2))) := List.perm_middle
          _ = (key, value) :: node.occs (node.mk p vs cs) := by
              rw [node.occs, hpk]
      · rw [add_eq_children p vs cs key value hs hk]
        have hsub := addToChildren_occs (key.drop (commonPfx p key).length) value cs ih
        have hkey : p ++ key.drop (commonPfx p key).length = key := by
          nth_rewrite 1 [← hcp]
          exact commonPfx_append_drop_right p key
        rw [node.occs]
        calc vs.map (fun v => (p, v)) ++
              (occsList (addToChildren cs (key.drop (commonPfx p key).length)
                value)).map (fun e => (p ++ e.1, e.2))
            ~ vs.map (fun v => (p, v)) ++
              (((key.drop (commonPfx p key).length, value) :: occsList cs).map
                (fun e => (p ++ e.1, e.2))) :=
              List.Perm.append_left _ (hsub.map _)
          _ = vs.map (fun v => (p, v)) ++ ((key, value) ::
              (occsList cs).map (fun e => (p ++ e.1, e.2))) := by
              rw [List.map_cons, hkey]
          _ ~ (key, value) :: (vs.map (fun v => (p, v)) ++
              (occsList cs).map (fun e => (p ++ e.1, e.2))) := List.perm_middle
          _ = (key, value) :: node.occs (node.mk p vs cs) := by
              rw [node.occs]

/-! ## `collectValues` emits the stored values in occurrence order -/

theorem collectList_eq_of (cs : List node)
    (H : ∀ c ∈ cs, ∀ dst,
      node.collectValues c dst = dst ++ (node.occs c).map Prod.snd) :
    ∀ dst, collectList cs dst = dst ++ (occsList cs).map Prod.snd := by
  induction cs with
  | nil => intro dst; simp [collectList, occsList]
  | cons c rest ih =>
    intro dst
    rw [collectList, H c (by simp), ih (fun c' h' => H c' (by simp [h']))]
    simp [occsList, List.append_assoc]

theorem collect_eq : ∀ n : node, ∀ dst,
    node.collectValues n dst = dst ++ (node.occs n).map Prod.snd := by
  intro n
  induction n using node.strongRec with
  | _ p vs cs ih =>
    intro dst
    rw [node.collectValues, collectList_eq_of cs ih]
    simp [node.occs, List.map_map, Function.comp, List.append_assoc]

theorem collectList_eq (cs : List node) (dst : List Int) :
    collectList cs dst = dst ++ (occsList cs).map Prod.snd :=
  collectList_eq_of cs (fun c _ => collect_eq c) dst

/-! ## Occurrence membership facts -/

theorem occs_pfx : ∀ (n : node) (e : List Char × Int),
    e ∈ node.occs n → node.pfx n <+: e.1 := by
  intro n e h
  cases n with
  | mk p vs cs =>
    rw [node.occs] at h
    simp only [List.mem_append, List.mem_map] at h
    rcases h with ⟨v, _, rfl⟩ | ⟨e', _, rfl⟩
    · simp [node.pfx]
    · simp [node.pfx, List.prefix_append]

theorem occsList_mem {e : List Char × Int} : ∀ cs : List node,
    e ∈ occsList cs ↔ ∃ c ∈ cs, e ∈ node.occs c := by
  intro cs
  induction cs with
  | nil => simp [occsList]
  | cons c rest ih =>
    simp only [occsList, List.mem_append, ih, List.mem_cons]
    constructor
    · rintro (h | ⟨c', hc', he⟩)
      · exact ⟨c, Or.inl rfl, h⟩
      · exact ⟨c', Or.inr hc', he⟩
    · rintro ⟨c', hc' | hc', he⟩
      · exact Or.inl (hc' ▸ he)
      · exact Or.inr ⟨c', hc', he⟩

theorem occs_mem_mk {e : List Char × Int} (p : List Char) (vs : List Int)
    (cs : List node) :
    e ∈ node.occs (node.mk p vs cs) ↔
      (∃ v ∈ vs, e = (p, v)) ∨
      (∃ e' , e' ∈ occsList cs ∧ e = (p ++ e'.1, e'.2)) := by
  rw [node.occs]
  simp only [List.mem_append, List.mem_map]
  constructor
  · rintro (⟨v, hv, rfl⟩ | ⟨e', he', rfl⟩)
    · exact Or.inl ⟨v, hv, rfl⟩
    · exact Or.inr ⟨e', he', rfl⟩
  · rintro (⟨v, hv, rfl⟩ | ⟨e', he', rfl⟩)
    · exact Or.inl ⟨v, hv, rfl⟩
    · exact Or.inr ⟨e', he', rfl⟩

/-! ## Preservation of the structural invariant by `add` -/

theorem firstRune_cons (x : Char) (l : List Char) : firstRune (x :: l) = x := rfl

theorem drop_ne_nil_of_lt {l : List Char} {k : Nat} (h : k < l.length) :
    l.drop k ≠ [] := by
  intro h'
  have := congrArg List.length h'
  simp only [List.length_drop, List.length_nil] at this
  omega

theorem nodeOk_mk (p : List Char) (vs : List Int) (cs : List node) :
    nodeOk (node.mk p vs cs) ↔
      List.Pairwise
        (fun a b => firstRune (node.pfx a) < firstRune (node.pfx b)) cs ∧
      (∀ c ∈ cs, node.pfx c ≠ []) ∧ nodeOkList cs := by
  rw [nodeOk]

theorem nodeOkList_iff : ∀ cs : List node, nodeOkList cs ↔ ∀ c ∈ cs, nodeOk c := by
  intro cs
  induction cs with
  | nil => simp [nodeOkList]
  | cons c rest ih =>
    rw [nodeOkList, ih]
    constructor
    · rintro ⟨h1, h2⟩ c' hc'
      rcases List.mem_cons.mp hc' with rfl | hc'
      · exact h1
      · exact h2 c' hc'
    · intro h
      exact ⟨h c (by simp), fun c' hc' => h c' (by simp [hc'])⟩

theorem add_pfx_cases (p : List Char) (vs : List Int) (cs : List node)
    (key : List Char) (value : Int) :
    node.pfx (node.add (node.mk p vs cs) key value) = commonPfx p key ∨
    node.pfx (node.add (node.mk p vs cs) key value) = p := by
  by_cases hs : (commonPfx p key).length < p.length
  · by_cases hk : (commonPfx p key).length = key.length
    · rw [add_eq_split_values p vs cs key value hs hk]
      exact Or.inl rfl
    · by_cases hgt : firstRune (key.drop (commonPfx p key).length) <
          firstRune (p.drop (commonPfx p key).length)
      · rw [add_eq_split_before p vs cs key value hs hk hgt]
        exact Or.inl rfl
      · have hne := commonPfx_head_ne p key hs
          (lt_of_le_of_ne (commonPfx_length_le_right p key) hk)
        have hlt := lt_of_le_of_ne (le_of_not_lt hgt) hne
        rw [add_eq_split_after p vs cs key value hs hk hlt]
        exact Or.inl rfl
  · by_cases hk : (commonPfx p key).length = key.length
    · rw [add_eq_values p vs cs key value hs hk]
      exact Or.inr rfl
    · rw [add_eq_children p vs cs key value hs hk]
      exact Or.inr rfl

theorem add_keeps_firstRune (c : node) (key : List Char) (value : Int)
    (hc : node.pfx c ≠ []) (hkey : key ≠ [])
    (heq : firstRune (node.pfx c) = firstRune key) :
    node.pfx (node.add c key value) ≠ [] ∧
    firstRune (node.pfx (node.add c key value)) = firstRune (node.pfx c) := by
  cases c with
  | mk p vs cs =>
    simp only [node.pfx] at hc heq
    cases p with
    | nil => exact absurd rfl hc
    | cons x p' =>
      cases key with
      | nil => exact absurd rfl hkey
      | cons y k' =>
        have hxy : x = y := by simpa [firstRune_cons] using heq
        have hcp : commonPfx (x :: p') (y :: k') = x :: commonPfx p' k' := by
          simp [commonPfx, hxy]
        rcases add_pfx_cases (x :: p') vs cs (y :: k') value with h | h
        · rw [h, hcp]
          simp [node.pfx, firstRune_cons]
        · rw [h]
          simp [node.pfx]

theorem addToChildren_ok (subKey : List Char) (value : Int) (hsub : subKey ≠ []) :
    ∀ cs : List node,
      (∀ c ∈ cs, ∀ key v, nodeOk c → nodeOk (node.add c key v)) →
      List.Pairwise
        (fun a b => firstRune (node.pfx a) < firstRune (node.pfx b)) cs →
      (∀ c ∈ cs, node.pfx c ≠ []) → nodeOkList cs →
      List.Pairwise (fun a b => firstRune (node.pfx a) < firstRune (node.pfx b))
          (addToChildren cs subKey value) ∧
        (∀ c ∈ addToChildren cs subKey value, node.pfx c ≠ []) ∧
        nodeOkList (addToChildren cs subKey value) ∧
        (∀ x ∈ addToChildren cs subKey value,
          firstRune (node.pfx x) = firstRune subKey ∨
          ∃ y ∈ cs, firstRune (node.pfx x) = firstRune (node.pfx y)) := by
  intro cs
  induction cs with
  | nil =>
    intro _ _ _ _
    refine ⟨by simp [addToChildren], ?_, ?_, ?_⟩
    · simp only [addToChildren, List.mem_singleton]
      rintro c rfl
      simpa [node.pfx] using hsub
    · simp only [addToChildren, nodeOkList, nodeOk_mk]
      simp [nodeOkList]
    · simp only [addToChildren, List.mem_singleton]
      rintro x rfl
      exact Or.inl rfl
  | cons c rest ih =>
    intro H hpair hne hok
    rw [nodeOkList] at hok
    rw [List.pairwise_cons] at hpair
    by_cases h1 : firstRune (node.pfx c) = firstRune subKey
    · have hkeep := add_keeps_firstRune c subKey value (hne c (by simp)) hsub h1
      simp only [addToChildren, if_pos h1]
      refine ⟨?_, ?_, ?_, ?_⟩
      · rw [List.pairwise_cons]
        exact ⟨fun b hb => by rw [hkeep.2]; exact hpair.1 b hb, hpair.2⟩
      · intro c' hc'
        rcases List.mem_cons.mp hc' with rfl | hc'
        · exact hkeep.1
        · exact hne c' (by simp [hc'])
      · rw [nodeOkList]
        exact ⟨H c (by simp) subKey value hok.1, hok.2⟩
      · intro x hx
        rcases List.mem_cons.mp hx with rfl | hx
        · exact Or.inr ⟨c, by simp, hkeep.2⟩
        · exact Or.inr ⟨x, by simp [hx], rfl⟩
    · by_cases h2 : firstRune (node.pfx c) > firstRune subKey
      · simp only [addToChildren, if_neg h1, if_pos h2]
        refine ⟨?_, ?_, ?_, ?_⟩
        · rw [List.pairwise_cons]
          constructor
          · intro b hb
            rcases List.mem_cons.mp hb with rfl | hb
            · simpa [node.pfx] using h2
            · have := hpair.1 b hb
              simp only [node.pfx]
              exact lt_trans h2 this
          · rw [List.pairwise_cons]
            exact ⟨hpair.1, hpair.2⟩
        · intro c' hc'
          rcases List.mem_cons.mp hc' with rfl | hc'
          · simpa [node.pfx] using hsub
          · exact hne c' hc'
        · simp only [nodeOkList]
          refine ⟨?_, hok.1, ?_⟩
          · rw [nodeOk_mk]
            simp [nodeOkList]
          · have : nodeOkList rest := hok.2
            revert this
            simp [nodeOkList_iff]
        · intro x hx
          rcases List.mem_cons.mp hx with rfl | hx
          · exact Or.inl rfl
          · exact Or.inr ⟨x, by simp [hx], rfl⟩
      · have hlt : firstRune (node.pfx c) < firstRune subKey :=
          lt_of_le_of_ne (le_of_not_lt h2) h1
        simp only [addToChildren, if_neg h1, if_neg h2]
        obtain ⟨ih1, ih2, ih3, ih4⟩ := ih (fun c' hc' => H c' (by simp [hc']))
          hpair.2 (fun c' hc' => hne c' (by simp [hc'])) hok.2
        refine ⟨?_, ?_, ?_, ?_⟩
        · rw [List.pairwise_cons]
          refine ⟨?_, ih1⟩
          intro b hb
          rcases ih4 b hb with hfr | ⟨y, hy, hfr⟩
          · rw [hfr]
            exact hlt
          · rw [hfr]
            exact hpair.1 y hy
        · intro c' hc'
          rcases List.mem_cons.mp hc' with rfl | hc'
          · exact hne c' (by simp)
          · exact ih2 c' hc'
        · rw [nodeOkList]
          exact ⟨hok.1, ih3⟩
        · intro x hx
          rcases List.mem_cons.mp hx with rfl | hx
          · exact Or.inr ⟨x, by simp, rfl⟩
          · rcases ih4 x hx with hfr | ⟨y, hy, hfr⟩
            · exact Or.inl hfr
            · exact Or.inr ⟨y, by simp [hy], hfr⟩

theorem add_ok : ∀ n : node, ∀ (key : List Char) (value : Int),
    nodeOk n → nodeOk (node.add n key value) := by
  intro n
  induction n using node.strongRec with
  | _ p vs cs ih =>
    intro key value hok
    rw [nodeOk_mk] at hok
    obtain ⟨hpair, hne, hlist⟩ := hok
    by_cases hs : (commonPfx p key).length < p.length
    · have hrel : node.pfx (node.mk (p.drop (commonPfx p key).length) vs cs) ≠ [] := by
        simp only [node.pfx]
        exact drop_ne_nil_of_lt hs
      have hrelOk : nodeOk (node.mk (p.drop (commonPfx p key).length) vs cs) := by
        rw [nodeOk_mk]
        exact ⟨hpair, hne, hlist⟩
      by_cases hk : (commonPfx p key).length = key.length
      · rw [add_eq_split_values p vs cs key value hs hk, nodeOk_mk]
        refine ⟨by simp, ?_, ?_⟩
        · intro c hc
          simp only [List.mem_singleton] at hc
          subst hc
          exact hrel
        · simp only [nodeOkList]
          exact ⟨hrelOk, trivial⟩
      · have hsubne : key.drop (commonPfx p key).length ≠ [] :=
          drop_ne_nil_of_lt (lt_of_le_of_ne (commonPfx_length_le_right p key) hk)
        have hleafOk : nodeOk (node.mk (key.drop (commonPfx p key).length) [value] []) := by
          rw [nodeOk_mk]
          simp [nodeOkList]
        by_cases hgt : firstRune (key.drop (commonPfx p key).length) <
            firstRune (p.drop (commonPfx p key).length)
        · rw [add_eq_split_before p vs cs key value hs hk hgt, nodeOk_mk]
          refine ⟨?_, ?_, ?_⟩
          · rw [List.pairwise_cons]
            refine ⟨?_, by simp⟩
            intro b hb
            simp only [List.mem_singleton] at hb
            subst hb
            simpa [node.pfx] using hgt
          · intro c hc
            rcases List.mem_cons.mp hc with rfl | hc
            · simpa [node.pfx] using hsubne
            · simp only [List.mem_singleton] at hc
              subst hc
              exact hrel
          · simp only [nodeOkList]
            exact ⟨hleafOk, hrelOk, trivial⟩
        · have hne2 := commonPfx_head_ne p key hs
            (lt_of_le_of_ne (commonPfx_length_le_right p key) hk)
          have hlt := lt_of_le_of_ne (le_of_not_lt hgt) hne2
          rw [add_eq_split_after p vs cs key value hs hk hlt, nodeOk_mk]
          refine ⟨?_, ?_, ?_⟩
          · rw [List.pairwise_cons]
            refine ⟨?_, by simp⟩
            intro b hb
            simp only [List.mem_singleton] at hb
            subst hb
            simpa [node.pfx] using hlt
          · intro c hc
            rcases List.mem_cons.mp hc with rfl | hc
            · exact hrel
            · simp only [List.mem_singleton] at hc
              subst hc
              simpa [node.pfx] using hsubne
          · simp only [nodeOkList]
            exact ⟨hrelOk, hleafOk, trivial⟩
    · by_cases hk : (commonPfx p key).length = key.length
      · rw [add_eq_values p vs cs key value hs hk, nodeOk_mk]
        exact ⟨hpair, hne, hlist⟩
      · have hsubne : key.drop (commonPfx p key).length ≠ [] :=
          drop_ne_nil_of_lt (lt_of_le_of_ne (commonPfx_length_le_right p key) hk)
        rw [add_eq_children p vs cs key value hs hk, nodeOk_mk]
        obtain ⟨a1, a2, a3, _⟩ := addToChildren_ok (key.drop (commonPfx p key).length)
          value hsubne cs ih hpair hne hlist
        exact ⟨a1, a2, a3⟩

/-! ## Correctness of the binary-search loop -/

theorem getD_eq_getElem_node (l : List node) (i : Nat) (h : i < l.length) :
    l.getD i default = l[i] := by
  simp [List.getD_eq_getElem?_getD, List.getElem?_eq_getElem h]

theorem searchLoop_spec (cs : List node) (fr : Char)
    (hmono : ∀ i j : Nat, i ≤ j → j < cs.length →
      firstRune (node.pfx (cs.getD i default)) ≤
        firstRune (node.pfx (cs.getD j default))) :
    ∀ fuel lo hi : Nat, hi - lo ≤ fuel → lo ≤ hi → hi ≤ cs.length →
      (∀ i < lo, firstRune (node.pfx (cs.getD i default)) < fr) →
      (∀ i, hi ≤ i → i < cs.length →
        ¬ firstRune (node.pfx (cs.getD i default)) < fr) →
      lo ≤ searchLoop cs fr lo hi ∧ searchLoop cs fr lo hi ≤ hi ∧
        (∀ i < searchLoop cs fr lo hi,
          firstRune (node.pfx (cs.getD i default)) < fr) ∧
        (∀ i, searchLoop cs fr lo hi ≤ i → i < cs.length →
          ¬ firstRune (node.pfx (cs.getD i default)) < fr) := by
  intro fuel
  induction fuel with
  | zero =>
    intro lo hi hfuel hlohi hhi hbelow habove
    have heq : lo = hi := by omega
    rw [searchLoop]
    simp only [if_neg (by omega : ¬ lo < hi)]
    exact ⟨le_refl _, by omega, hbelow, fun i hi1 hi2 => habove i (by omega) hi2⟩
  | succ fuel ih =>
    intro lo hi hfuel hlohi hhi hbelow habove
    by_cases h : lo < hi
    · rw [searchLoop]
      simp only [if_pos h]
      have hmidlt : lo + (hi - lo) / 2 < hi := by omega
      have hmidge : lo ≤ lo + (hi - lo) / 2 := by omega
      by_cases hcmp : firstRune
          (node.pfx (cs.getD (lo + (hi - lo) / 2) default)) < fr
      · simp only [if_pos hcmp]
        refine (ih (lo + (hi - lo) / 2 + 1) hi (by omega) (by omega) hhi ?_
          habove).imp (by omega) id
        intro i hi1
        rcases Nat.lt_or_ge i lo with hc | hc
        · exact hbelow i hc
        · exact lt_of_le_of_lt
            (hmono i (lo + (hi - lo) / 2) (by omega) (by omega)) hcmp
      · simp only [if_neg hcmp]
        refine (ih lo (lo + (hi - lo) / 2) (by omega) (by omega) (by omega)
          hbelow ?_).imp id (fun h2 => ⟨by omega, h2.2⟩)
        intro i hi1 hi2 hcon
        exact hcmp (lt_of_le_of_lt (hmono (lo + (hi - lo) / 2) i hi1 hi2) hcon)
    · rw [searchLoop]
      simp only [if_neg h]
      exact ⟨le_refl _, by omega, hbelow, fun i hi1 hi2 => habove i (by omega) hi2⟩

theorem searchLoop_finds (cs : List node) (fr : Char)
    (hpair : List.Pairwise
      (fun a b => firstRune (node.pfx a) < firstRune (node.pfx b)) cs)
    (i0 : Nat) (hi0 : i0 < cs.length)
    (hfr : firstRune (node.pfx (cs.getD i0 default)) = fr) :
    searchLoop cs fr 0 cs.length = i0 := by
  have hmono : ∀ i j : Nat, i ≤ j → j < cs.length →
      firstRune (node.pfx (cs.getD i default)) ≤
        firstRune (node.pfx (cs.getD j default)) := by
    intro i j hij hj
    rcases eq_or_lt_of_le hij with rfl | hlt
    · exact le_refl _
    · have hp := List.pairwise_iff_getElem.mp hpair i j (by omega) hj hlt
      rw [getD_eq_getElem_node cs i (by omega), getD_eq_getElem_node cs j hj]
      exact le_of_lt hp
  obtain ⟨h1, h2, h3, h4⟩ := searchLoop_spec cs fr hmono cs.length 0 cs.length
    (by omega) (by omega) (le_refl _) (by omega) (by omega)
  set r := searchLoop cs fr 0 cs.length with hr
  by_contra hne
  rcases Nat.lt_or_ge r i0 with hc | hc
  · have := List.pairwise_iff_getElem.mp hpair r i0 (by omega) hi0 hc
    have hr1 := h4 r (le_refl _) (by omega)
    rw [getD_eq_getElem_node cs r (by omega)] at hr1
    rw [getD_eq_getElem_node cs i0 hi0] at hfr
    exact hr1 (hfr ▸ this)
  · have hc2 : i0 < r := by omega
    have := h3 i0 hc2
    rw [hfr] at this
    exact lt_irrefl fr this

/-! ## Characterisation of `find` on stored paths -/

theorem isPrefixOf_append_left : ∀ p s' t : List Char,
    (p ++ s').isPrefixOf (p ++ t) = s'.isPrefixOf t := by
  intro p
  induction p with
  | nil => intro s' t; rfl
  | cons x p' ih =>
    intro s' t
    simp [List.cons_append, List.isPrefixOf, ih]

theorem occs_filter_nil (c : node) (s' : List Char) (hcne : node.pfx c ≠ [])
    (hs' : s' ≠ []) (hhead : firstRune (node.pfx c) ≠ firstRune s') :
    (node.occs c).filter (fun e => s'.isPrefixOf e.1) = [] := by
  rw [List.filter_eq_nil_iff]
  intro e he
  rcases List.exists_cons_of_ne_nil hs' with ⟨x, s'', rfl⟩
  rcases List.exists_cons_of_ne_nil hcne with ⟨y, t, hy⟩
  have hpfx := occs_pfx c e he
  rw [hy] at hpfx
  rcases hpfx with ⟨t2, ht2⟩
  intro hcon
  rw [List.isPrefixOf_iff_prefix] at hcon
  rcases hcon with ⟨t3, ht3⟩
  rw [← ht2] at ht3
  simp only [List.cons_append] at ht3
  have hxy : x = y := (List.cons.injEq _ _ _ _ ▸ ht3).1
  rw [hy] at hhead
  exact hhead (by simp [firstRune_cons, hxy])

theorem occsList_filter_nil (pred : List Char × Int → Bool) :
    ∀ cs : List node, (∀ c ∈ cs, (node.occs c).filter pred = []) →
      (occsList cs).filter pred = [] := by
  intro cs
  induction cs with
  | nil => intro _; simp [occsList]
  | cons c rest ih =>
    intro h
    rw [occsList, List.filter_append, h c (by simp),
      ih (fun c' hc' => h c' (by simp [hc']))]
    rfl

theorem occsList_filter_single (s' : List Char) (hs' : s' ≠ []) :
    ∀ cs : List node,
      List.Pairwise
        (fun a b => firstRune (node.pfx a) < firstRune (node.pfx b)) cs →
      (∀ c ∈ cs, node.pfx c ≠ []) →
      ∀ c0 ∈ cs, firstRune (node.pfx c0) = firstRune s' →
      (occsList cs).filter (fun e => s'.isPrefixOf e.1) =
        (node.occs c0).filter (fun e => s'.isPrefixOf e.1) := by
  intro cs
  induction cs with
  | nil => intro _ _ c0 hc0; simp at hc0
  | cons c rest ih =>
    intro hpair hne c0 hc0 hhead
    rw [List.pairwise_cons] at hpair
    rw [occsList, List.filter_append]
    rcases List.mem_cons.mp hc0 with rfl | hc0
    · have hrest : (occsList rest).filter (fun e => s'.isPrefixOf e.1) = [] := by
        apply occsList_filter_nil
        intro c' hc'
        apply occs_filter_nil c' s' (hne c' (by simp [hc'])) hs'
        have := hpair.1 c' hc'
        rw [hhead] at this
        exact ne_of_gt this
      rw [hrest, List.append_nil]
    · have hcnil : (node.occs c).filter (fun e => s'.isPrefixOf e.1) = [] := by
        apply occs_filter_nil c s' (hne c (by simp)) hs'
        have := hpair.1 c0 hc0
        rw [hhead] at this
        exact ne_of_lt this
      rw [hcnil, List.nil_append]
      exact ih hpair.2 (fun c' hc' => hne c' (by simp [hc'])) c0 hc0 hhead

theorem find_eq : ∀ n : node, ∀ (q : List Char) (dst : List Int) (w0 : Int),
    nodeOk n → (q, w0) ∈ node.occs n →
    node.find n dst q = some (dst ++
      ((node.occs n).filter (fun e => q.isPrefixOf e.1)).map Prod.snd) := by
  intro n
  induction n using node.strongRec with
  | _ p vs cs ih =>
    intro q dst w0 hok hmem
    rw [nodeOk_mk] at hok
    obtain ⟨hpair, hne, hlist⟩ := hok
    by_cases hq : q.isPrefixOf p
    · rw [node.find]
      rw [if_pos hq, collect_eq]
      have hall : (node.occs (node.mk p vs cs)).filter
          (fun e => q.isPrefixOf e.1) = node.occs (node.mk p vs cs) := by
        rw [List.filter_eq_self]
        intro e he
        have hp := occs_pfx _ e he
        simp only [node.pfx] at hp
        rw [List.isPrefixOf_iff_prefix] at hq ⊢
        exact hq.trans hp
      rw [hall]
    · rcases (occs_mem_mk p vs cs).mp hmem with ⟨v, _, hqv⟩ | ⟨e', he', hqe⟩
      · exfalso
        have : q = p := (Prod.mk.injEq _ _ _ _ ▸ hqv).1
        apply hq
        rw [List.isPrefixOf_iff_prefix, this]
      · obtain ⟨s', w', rfl⟩ : ∃ a b, e' = (a, b) := ⟨e'.1, e'.2, rfl⟩
        have hq1 : q = p ++ s' := (Prod.mk.injEq _ _ _ _ ▸ hqe).1
        have hs' : s' ≠ [] := by
          rintro rfl
          apply hq
          rw [List.isPrefixOf_iff_prefix, hq1, List.append_nil]
        obtain ⟨c0, hc0, he0⟩ := (occsList_mem cs).mp he'
        have hc0ne : node.pfx c0 ≠ [] := hne c0 hc0
        have hc0pfx : node.pfx c0 <+: s' := occs_pfx c0 (s', w') he0
        have hhead : firstRune (node.pfx c0) = firstRune s' := by
          rcases List.exists_cons_of_ne_nil hc0ne with ⟨y, t, hy⟩
          rcases hc0pfx with ⟨t2, ht2⟩
          rw [hy] at ht2
          rw [hy, ← ht2]
          simp [firstRune_cons]
        have hlen : p.length ≤ q.length := by
          rw [hq1, List.length_append]
          omega
        have hsub : q.drop p.length = s' := by
          rw [hq1, List.drop_left]
        obtain ⟨i0, hi0, hgi0⟩ := List.mem_iff_getElem.mp hc0
        have hfind := searchLoop_finds cs (firstRune (q.drop p.length)) hpair i0 hi0
          (by rw [getD_eq_getElem_node cs i0 hi0, hgi0, hsub]; exact hhead)
        rw [node.find]
        rw [if_neg hq, if_pos hlen]
        simp only [hfind]
        rw [dif_pos hi0]
        rw [if_pos (by rw [getD_eq_getElem_node cs i0 hi0, hgi0, hsub]; exact hhead)]
        rw [getD_eq_getElem_node cs i0 hi0, hgi0, hsub]
        rw [ih c0 hc0 s' dst w' (by rw [nodeOkList_iff] at hlist; exact hlist c0 hc0) he0]
        congr 1
        rw [node.occs, List.filter_append]
        have hvals : (vs.map (fun v => (p, v))).filter
            (fun e => q.isPrefixOf e.1) = [] := by
          rw [List.filter_eq_nil_iff]
          intro e he
          rcases List.mem_map.mp he with ⟨v, _, rfl⟩
          simpa using hq
        have hshift : ((occsList cs).map (fun e => (p ++ e.1, e.2))).filter
            (fun e => q.isPrefixOf e.1) =
            ((occsList cs).filter (fun e => s'.isPrefixOf e.1)).map
              (fun e => (p ++ e.1, e.2)) := by
          rw [List.filter_map]
          congr 1
          apply List.filter_congr
          intro e _
          simp only [Function.comp_apply, hq1]
          exact isPrefixOf_append_left p s' e.1
        rw [hvals, List.nil_append, hshift,
          occsList_filter_single s' hs' cs hpair hne c0 hc0 hhead,
          List.map_map]
        congr 1

/-! ## The output-buffer frame property of `find` -/

theorem find_frame : ∀ n : node, ∀ (dst : List Int) (q : List Char),
    node.find n dst q = (node.find n [] q).map (fun tail => dst ++ tail) := by
  intro n
  induction n using node.strongRec with
  | _ p vs cs ih =>
    intro dst q
    rw [node.find, node.find]
    by_cases hq : q.isPrefixOf p
    · rw [if_pos hq, if_pos hq, collect_eq, collect_eq]
      simp
    · rw [if_neg hq, if_neg hq]
      by_cases hlen : p.length ≤ q.length
      · rw [if_pos hlen, if_pos hlen]
        by_cases hlo : searchLoop cs (firstRune (q.drop p.length)) 0 cs.length <
            cs.length
        · rw [dif_pos hlo, dif_pos hlo]
          by_cases hfr : firstRune (node.pfx (cs.getD
              (searchLoop cs (firstRune (q.drop p.length)) 0 cs.length)
              default)) = firstRune (q.drop p.length)
          · rw [if_pos hfr, if_pos hfr]
            exact ih _ (getD_mem_of_lt cs _ hlo) dst (q.drop p.length)
          · rw [if_neg hfr, if_neg hfr]
            simp
        · rw [dif_neg hlo, dif_neg hlo]
          simp
      · rw [if_neg hlen, if_neg hlen]
        rfl

/-! ## Building a trie from a sequence of `Add` calls -/

/-- The list of suffixes of `key` that `(*Trie).Add` inserts: one per
code-point offset, the empty suffix excluded. -/
def suffixList (k : List Char) : List (List Char) :=
  (List.range k.length).map (fun j => k.drop j)

theorem suffixList_cons (c : Char) (rest : List Char) :
    suffixList (c :: rest) = (c :: rest) :: suffixList rest := by
  rw [suffixList, suffixList, List.length_cons, List.range_succ_eq_map,
    List.map_cons, List.map_map]
  congr 1

theorem suffixList_mem {k : List Char} {j : Nat} (hj : j < k.length) :
    k.drop j ∈ suffixList k := by
  rw [suffixList]
  exact List.mem_map.mpr ⟨j, List.mem_range.mpr hj, rfl⟩

theorem addSuffixes_occs : ∀ (k : List Char) (n : node) (value : Int),
    node.occs (addSuffixes n k value) ~
      (suffixList k).map (fun s => (s, value)) ++ node.occs n := by
  intro k
  induction k with
  | nil =>
    intro n value
    rw [addSuffixes]
    simp [suffixList]
  | cons c rest ih =>
    intro n value
    rw [addSuffixes, suffixList_cons]
    calc node.occs (addSuffixes (node.add n (c :: rest) value) rest value)
        ~ (suffixList rest).map (fun s => (s, value)) ++
            node.occs (node.add n (c :: rest) value) := ih _ value
      _ ~ (suffixList rest).map (fun s => (s, value)) ++
            ((c :: rest, value) :: node.occs n) :=
          List.Perm.append_left _ (add_occs n (c :: rest) value)
      _ ~ (c :: rest, value) ::
            ((suffixList rest).map (fun s => (s, value)) ++ node.occs n) :=
          List.perm_middle
      _ = ((c :: rest) :: suffixList rest).map (fun s => (s, value)) ++
            node.occs n := by
          rw [List.map_cons]
          rfl

/-- All (stored path, value) occurrences a sequence of `Add` calls creates. -/
def opsOccs (ops : List (List Char × Int)) : List (List Char × Int) :=
  ops.flatMap (fun e => (suffixList e.1).map (fun s => (s, e.2)))

theorem buildTrie_occs_aux : ∀ (ops : List (List Char × Int)) (t : Trie),
    node.occs (ops.foldl (fun t e => Trie.Add t e.1 e.2) t).root ~
      opsOccs ops ++ node.occs t.root := by
  intro ops
  induction ops with
  | nil => intro t; simp [opsOccs]
  | cons e rest ih =>
    intro t
    rw [List.foldl_cons]
    calc node.occs (rest.foldl (fun t e => Trie.Add t e.1 e.2)
            (Trie.Add t e.1 e.2)).root
        ~ opsOccs rest ++ node.occs (Trie.Add t e.1 e.2).root := ih _
      _ ~ opsOccs rest ++ ((suffixList e.1).map (fun s => (s, e.2)) ++
            node.occs t.root) :=
          List.Perm.append_left _ (addSuffixes_occs e.1 t.root e.2)
      _ = (opsOccs rest ++ (suffixList e.1).map (fun s => (s, e.2))) ++
            node.occs t.root := by rw [List.append_assoc]
      _ ~ ((suffixList e.1).map (fun s => (s, e.2)) ++ opsOccs rest) ++
            node.occs t.root :=
          (List.perm_append_comm).append_right _
      _ = opsOccs (e :: rest) ++ node.occs t.root := by
          simp only [opsOccs, List.flatMap_cons, List.append_assoc]

theorem buildTrie_occs (ops : List (List Char × Int)) :
    node.occs (buildTrie ops).root ~ opsOccs ops := by
  have := buildTrie_occs_aux ops Trie.zero
  rw [buildTrie]
  simpa [Trie.zero, node.occs, occsList] using this

theorem addSuffixes_ok : ∀ (k : List Char) (n : node) (value : Int),
    nodeOk n → nodeOk (addSuffixes n k value) := by
  intro k
  induction k with
  | nil => intro n value h; rw [addSuffixes]; exact h
  | cons c rest ih =>
    intro n value h
    rw [addSuffixes]
    exact ih _ value (add_ok n (c :: rest) value h)

theorem buildTrie_ok (ops : List (List Char × Int)) :
    nodeOk (buildTrie ops).root := by
  rw [buildTrie]
  have : ∀ (l : List (List Char × Int)) (t : Trie), nodeOk t.root →
      nodeOk (l.foldl (fun t e => Trie.Add t e.1 e.2) t).root := by
    intro l
    induction l with
    | nil => intro t h; exact h
    | cons e rest ih =>
      intro t h
      rw [List.foldl_cons]
      exact ih _ (addSuffixes_ok e.1 t.root e.2 h)
  apply this
  rw [Trie.zero, nodeOk_mk]
  simp [nodeOkList]

/-! ## The root keeps an empty label and no values -/

theorem commonPfx_nil_left (b : List Char) : commonPfx [] b = [] := by
  cases b <;> rfl

theorem add_root (vs : List Int) (cs : List node) (key : List Char)
    (value : Int) (hkey : key ≠ []) :
    node.add (node.mk [] vs cs) key value =
      node.mk [] vs (addToChildren cs key value) := by
  have h0 : commonPfx [] key = [] := commonPfx_nil_left key
  have h1 := add_eq_children [] vs cs key value (by rw [h0]; simp)
    (by
      rw [h0]
      intro hc
      exact hkey (List.length_eq_zero.mp hc.symm))
  rw [h1, h0]
  simp

theorem addSuffixes_root : ∀ (k : List Char) (vs : List Int) (cs : List node)
    (value : Int), ∃ cs', addSuffixes (node.mk [] vs cs) k value =
      node.mk [] vs cs' := by
  intro k
  induction k with
  | nil => intro vs cs value; exact ⟨cs, rfl⟩
  | cons c rest ih =>
    intro vs cs value
    rw [addSuffixes, add_root vs cs (c :: rest) value (by simp)]
    exact ih vs _ value

theorem buildTrie_root (ops : List (List Char × Int)) :
    ∃ cs, (buildTrie ops).root = node.mk [] [] cs := by
  rw [buildTrie]
  have : ∀ (l : List (List Char × Int)) (t : Trie),
      (∃ cs, t.root = node.mk [] [] cs) →
      ∃ cs, (l.foldl (fun t e => Trie.Add t e.1 e.2) t).root =
        node.mk [] [] cs := by
    intro l
    induction l with
    | nil => intro t h; exact h
    | cons e rest ih =>
      intro t h
      obtain ⟨cs, hcs⟩ := h
      rw [List.foldl_cons]
      apply ih
      rw [Trie.Add, hcs]
      exact addSuffixes_root e.1 [] cs e.2
  exact this ops Trie.zero ⟨[], rfl⟩

/-! ## Counting the occurrences of a value with distinct values -/

theorem opsOccs_cons (e : List Char × Int) (rest : List (List Char × Int)) :
    opsOccs (e :: rest) = (suffixList e.1).map (fun s => (s, e.2)) ++ opsOccs rest := by
  simp [opsOccs]

theorem suffixList_countP_self (k : List Char) (hk : k ≠ []) :
    (suffixList k).countP (fun s => k.isPrefixOf s) = 1 := by
  rcases List.exists_cons_of_ne_nil hk with ⟨c, rest, rfl⟩
  rw [suffixList_cons, List.countP_cons]
  have h1 : ((c :: rest).isPrefixOf (c :: rest)) = true := by
    rw [List.isPrefixOf_iff_prefix]
  have h2 : (suffixList rest).countP (fun s => (c :: rest).isPrefixOf s) = 0 := by
    rw [List.countP_eq_zero]
    intro s hs
    rw [suffixList] at hs
    rcases List.mem_map.mp hs with ⟨j, hj, rfl⟩
    rw [List.mem_range] at hj
    intro hcon
    rw [List.isPrefixOf_iff_prefix] at hcon
    have := hcon.length_le
    rw [List.length_drop, List.length_cons] at this
    omega
  rw [h2, h1]
  rfl

theorem block_countP_ne (k k' : List Char) (w v : Int) (hw : w ≠ v) :
    ((suffixList k').map (fun s => (s, w))).countP
      (fun e => (e.2 == v) && k.isPrefixOf e.1) = 0 := by
  rw [List.countP_eq_zero]
  intro e he
  rcases List.mem_map.mp he with ⟨s, _, rfl⟩
  simp [hw]

theorem opsOccs_countP_zero (v : Int) (k : List Char) :
    ∀ ops : List (List Char × Int), v ∉ ops.map Prod.snd →
      (opsOccs ops).countP (fun e => (e.2 == v) && k.isPrefixOf e.1) = 0 := by
  intro ops
  induction ops with
  | nil => intro _; rfl
  | cons e rest ih =>
    intro hv
    rw [List.map_cons] at hv
    rw [opsOccs_cons, List.countP_append]
    have h1 := block_countP_ne k e.1 e.2 v (fun h => hv (by simp [h]))
    rw [h1, ih (fun h => hv (by simp [h]))]

theorem opsOccs_countP_one (v : Int) (k : List Char) (hk : k ≠ []) :
    ∀ ops : List (List Char × Int), (ops.map Prod.snd).Nodup → (k, v) ∈ ops →
      (opsOccs ops).countP (fun e => (e.2 == v) && k.isPrefixOf e.1) = 1 := by
  intro ops
  induction ops with
  | nil => intro _ h; simp at h
  | cons e rest ih =>
    intro hnd hmem
    rw [List.map_cons, List.nodup_cons] at hnd
    rw [opsOccs_cons, List.countP_append]
    rcases List.mem_cons.mp hmem with heq | hmem'
    · rw [← heq]
      have hblock : ((suffixList k).map (fun s => (s, v))).countP
          (fun e => (e.2 == v) && k.isPrefixOf e.1) = 1 := by
        rw [List.countP_map]
        have hcg : (suffixList k).countP
            ((fun e : List Char × Int => (e.2 == v) && k.isPrefixOf e.1) ∘
              (fun s => (s, v))) =
            (suffixList k).countP (fun s => k.isPrefixOf s) := by
          apply List.countP_congr
          intro s _
          simp
        rw [hcg, suffixList_countP_self k hk]
      rw [hblock]
      have hrest : (opsOccs rest).countP
          (fun e => (e.2 == v) && k.isPrefixOf e.1) = 0 := by
        apply opsOccs_countP_zero
        rw [← heq] at hnd
        exact hnd.1
      rw [hrest]
    · have hv : v ∈ rest.map Prod.snd := List.mem_map.mpr ⟨(k, v), hmem', rfl⟩
      have he2 : e.2 ≠ v := fun h => hnd.1 (h ▸ hv)
      rw [block_countP_ne k e.1 e.2 v he2, ih hnd.2 hmem']

/-! ## The spec's I1/I2 invariant pair -/

mutual

/-- The spec's invariants I1 (children strictly ascending and unique by the
first code point of their labels) and I2 (no two sibling labels share a
non-empty common leading prefix, stated via the source's own common-prefix
function), required at every node of the tree. -/
def treeInv : node → Prop
  | node.mk _ _ cs =>
    List.Pairwise
      (fun a b => firstRune (node.pfx a) < firstRune (node.pfx b)) cs ∧
    List.Pairwise
      (fun a b => commonPfx (node.pfx a) (node.pfx b) = []) cs ∧
    treeInvList cs

/-- `treeInv` for every node of a list of children. -/
def treeInvList : List node → Prop
  | [] => True
  | c :: rest => treeInv c ∧ treeInvList rest

end

theorem treeInv_mk (p : List Char) (vs : List Int) (cs : List node) :
    treeInv (node.mk p vs cs) ↔
      List.Pairwise
        (fun a b => firstRune (node.pfx a) < firstRune (node.pfx b)) cs ∧
      List.Pairwise
        (fun a b => commonPfx (node.pfx a) (node.pfx b) = []) cs ∧
      treeInvList cs := by
  rw [treeInv]

theorem treeInvList_iff : ∀ cs : List node,
    treeInvList cs ↔ ∀ c ∈ cs, treeInv c := by
  intro cs
  induction cs with
  | nil => simp [treeInvList]
  | cons c rest ih =>
    rw [treeInvList, ih]
    constructor
    · rintro ⟨h1, h2⟩ c' hc'
      rcases List.mem_cons.mp hc' with rfl | hc'
      · exact h1
      · exact h2 c' hc'
    · intro h
      exact ⟨h c (by simp), fun c' hc' => h c' (by simp [hc'])⟩

theorem commonPfx_eq_nil_of_head_ne (a b : List Char) (ha : a ≠ [])
    (h : firstRune a ≠ firstRune b) : commonPfx a b = [] := by
  rcases List.exists_cons_of_ne_nil ha with ⟨x, a', rfl⟩
  cases b with
  | nil => rfl
  | cons y b' =>
    have hxy : x ≠ y := by simpa [firstRune_cons] using h
    simp [commonPfx, hxy]

theorem nodeOk_treeInv : ∀ n : node, nodeOk n → treeInv n := by
  intro n
  induction n using node.strongRec with
  | _ p vs cs ih =>
    intro hok
    rw [nodeOk_mk] at hok
    obtain ⟨hpair, hne, hlist⟩ := hok
    rw [treeInv_mk]
    refine ⟨hpair, ?_, ?_⟩
    · apply List.Pairwise.imp_of_mem ?_ hpair
      intro a b ha _ hfr
      exact commonPfx_eq_nil_of_head_ne _ _ (hne a ha) (ne_of_lt hfr)
    · rw [treeInvList_iff]
      intro c hc
      rw [nodeOkList_iff] at hlist
      exact ih c hc (hlist c hc)

/-! ## Claim theorems -/

/-- C1: substring completeness.  For every trie built from the zero value by
a sequence of `Add` calls, every key `k` added with some value `v`, and
every code-point offset `j` into `k`, `Find(nil, k[j:])` completes and
returns a result that contains `v`. -/
theorem C1_substring_completeness (ops : List (List Char × Int))
    (k : List Char) (v : Int) (hmem : (k, v) ∈ ops) (j : Nat)
    (hj : j < k.length) :
    ∃ res, Trie.Find (buildTrie ops) [] (k.drop j) = some res ∧ v ∈ res := by
  have hocc : (k.drop j, v) ∈ node.occs (buildTrie ops).root := by
    apply (buildTrie_occs ops).mem_iff.mpr
    rw [opsOccs]
    apply List.mem_flatMap.mpr
    exact ⟨(k, v), hmem, List.mem_map.mpr ⟨k.drop j, suffixList_mem hj, rfl⟩⟩
  have hfind := find_eq (buildTrie ops).root (k.drop j) [] v
    (buildTrie_ok ops) hocc
  rw [Trie.Find, hfind]
  refine ⟨_, rfl, ?_⟩
  rw [List.nil_append]
  apply List.mem_map.mpr
  refine ⟨(k.drop j, v), ?_, rfl⟩
  apply List.mem_filter.mpr
  refine ⟨hocc, ?_⟩
  rw [List.isPrefixOf_iff_prefix]

theorem C1_witness :
    ((['a', 'b'], (5 : Int)) ∈ [((['a', 'b'] : List Char), (5 : Int))]) ∧
    1 < (['a', 'b'] : List Char).length ∧
    ∃ res, Trie.Find (buildTrie [((['a', 'b'] : List Char), (5 : Int))]) []
      ((['a', 'b'] : List Char).drop 1) = some res ∧ (5 : Int) ∈ res :=
  ⟨by simp, by simp,
    C1_substring_completeness [(['a', 'b'], 5)] ['a', 'b'] 5 (by simp) 1
      (by simp)⟩

/-- C2 (corrected, counterexample): the claim fails for the degenerate empty
key: `Add("", 5)` inserts nothing (the suffix loop has no iterations), so
`Find(nil, "")` on that trie returns a result in which `5` occurs zero, not
one, times. -/
theorem C2_counterexample :
    Trie.Find (buildTrie [(([] : List Char), (5 : Int))]) [] [] = some [] ∧
    ¬ (([] : List Int).count 5 = 1) := by
  constructor
  · simp [buildTrie, Trie.Add, Trie.zero, Trie.Find, addSuffixes, node.find,
      node.collectValues, collectList, List.isPrefixOf]
  · simp

/-- C2 (amended): for every trie built by a sequence of `Add` calls with
pairwise-distinct values, and every nonempty key `k` added with value `v`,
`Find(nil, k)` completes and returns a result containing `v` exactly once. -/
theorem C2_full_key_roundtrip (ops : List (List Char × Int))
    (hnd : (ops.map Prod.snd).Nodup) (k : List Char) (v : Int)
    (hmem : (k, v) ∈ ops) (hk : k ≠ []) :
    ∃ res, Trie.Find (buildTrie ops) [] k = some res ∧ res.count v = 1 := by
  have h0 : 0 < k.length := List.length_pos.mpr hk
  have hocc : (k, v) ∈ node.occs (buildTrie ops).root := by
    apply (buildTrie_occs ops).mem_iff.mpr
    rw [opsOccs]
    apply List.mem_flatMap.mpr
    refine ⟨(k, v), hmem, List.mem_map.mpr ⟨k, ?_, rfl⟩⟩
    have hdz : k.drop 0 = k := List.drop_zero k
    rw [← hdz]
    exact suffixList_mem h0
  have hfind := find_eq (buildTrie ops).root k [] v (buildTrie_ok ops) hocc
  rw [Trie.Find, hfind]
  refine ⟨_, rfl, ?_⟩
  rw [List.nil_append]
  calc List.count v ((List.filter (fun e => k.isPrefixOf e.1)
        (node.occs (buildTrie ops).root)).map Prod.snd)
      = List.countP (fun e => (e.2 == v) && k.isPrefixOf e.1)
          (node.occs (buildTrie ops).root) := by
        rw [List.count_eq_countP, List.countP_map, List.countP_filter]
        apply List.countP_congr
        intro x _
        exact Iff.rfl
    _ = List.countP (fun e => (e.2 == v) && k.isPrefixOf e.1) (opsOccs ops) :=
        (buildTrie_occs ops).countP_eq _
    _ = 1 := opsOccs_countP_one v k hk ops hnd hmem

theorem C2_witness :
    (List.map Prod.snd [((['a'] : List Char), (3 : Int))]).Nodup ∧
    ∃ res, Trie.Find (buildTrie [((['a'] : List Char), (3 : Int))]) [] ['a'] =
      some res ∧ res.count 3 = 1 :=
  ⟨by simp,
    C2_full_key_roundtrip [(['a'], 3)] (by simp) ['a'] 3 (by simp) (by simp)⟩

/-- C3 (code bug): `Find` is not total.  After `Add("1234567", 1)`, the
query `"1245"` reaches the stored label `"1234567"`, the `HasPrefix` test
fails, and the source then evaluates `prefix[len(n.prefix):]` with
`len(prefix) = 4 < 7` — an out-of-range string slice, i.e. a runtime panic
in Go, modelled as `none`; the out-of-range branch of the embedding is
reachable, contradicting the claim. -/
theorem C3_find_panics :
    Trie.Find (buildTrie [((['1', '2', '3', '4', '5', '6', '7'] : List Char),
      (1 : Int))]) [] ['1', '2', '4', '5'] = none := by
  simp [buildTrie, Trie.Add, Trie.zero, Trie.Find, addSuffixes, node.add,
    addToChildren, commonPfx, firstRune, node.pfx, node.find, searchLoop,
    node.collectValues, collectList, List.isPrefixOf]

/-- C4 (code bug): `Find` has false positives.  After `Add("abc", 1)` and
`Add("abd", 2)`, the query `"azc"` is not a prefix of any inserted suffix
(every inserted suffix starting with `'a'` continues with `'b'`), yet
`find` blindly drops `len("ab")` characters from the query after diverging
inside the label `"ab"` and then matches the child `"c"`, returning `[1]`
instead of the empty result. -/
theorem C4_false_positive :
    Trie.Find (buildTrie [((['a', 'b', 'c'] : List Char), (1 : Int)),
      ((['a', 'b', 'd'] : List Char), (2 : Int))]) [] ['a', 'z', 'c'] =
      some [1] := by
  simp [buildTrie, Trie.Add, Trie.zero, Trie.Find, addSuffixes, node.add,
    addToChildren, commonPfx, firstRune, node.pfx, node.find, searchLoop,
    node.collectValues, collectList, List.isPrefixOf]

/-- C5 (corrected, counterexample): `Add("", 5)` does not tag the root —
the per-offset loop of `Add` ranges over the rune start positions of the
key, so for the empty key it performs zero iterations and inserts nothing,
not the empty suffix; the subsequent `Find` for the empty prefix returns a
result that does not contain `5`. -/
theorem C5_counterexample :
    Trie.Find (Trie.Add Trie.zero [] 5) [] [] = some [] ∧
    (5 : Int) ∉ ([] : List Int) := by
  constructor
  · simp [Trie.Add, Trie.zero, Trie.Find, addSuffixes, node.find,
      node.collectValues, collectList, List.isPrefixOf]
  · simp

/-- C5 (amended): `Add` with the empty key never fails and is a complete
no-op: it inserts nothing and leaves the trie unchanged (hence it does not
tag the root, and a later `Find` result is unaffected by it). -/
theorem C5_empty_key_noop (t : Trie) (value : Int) : Trie.Add t [] value = t :=
  rfl

/-- C6: sorted-children invariant.  In every trie reachable from the zero
value by a sequence of `Add` calls, every node satisfies I1 (children
strictly ascending, hence unique, by the first code point of their labels)
and I2 (no two sibling labels share a non-empty common leading prefix);
`add` — including its child-insertion and node-splitting paths — preserves
this (lemma `add_ok`), so it holds after every `Add` call. -/
theorem C6_sorted_children_invariant (ops : List (List Char × Int)) :
    treeInv (buildTrie ops).root :=
  nodeOk_treeInv _ (buildTrie_ok ops)

/-- C7 (corrected, counterexample): with a non-empty buffer and the
zero-match prefix `"1245"` (after `Add("1234567", 1)`), `Find` does not
return the buffer unchanged — it panics (out-of-range slice, modelled as
`none`), so the buffer-identity claim fails as universally stated. -/
theorem C7_counterexample :
    Trie.Find (buildTrie [((['1', '2', '3', '4', '5', '6', '7'] : List Char),
      (1 : Int))]) [99] ['1', '2', '4', '5'] = none := by
  simp [buildTrie, Trie.Add, Trie.zero, Trie.Find, addSuffixes, node.add,
    addToChildren, commonPfx, firstRune, node.pfx, node.find, searchLoop,
    node.collectValues, collectList, List.isPrefixOf]

/-- C7 (amended): whenever `Find` returns normally, its result is exactly
the caller's buffer followed by the matched values: `Find(dst, q)` equals
`Find(nil, q)` with `dst` prepended.  In particular a normal return with
zero matches returns `dst` itself unchanged. -/
theorem C7_buffer_frame (t : Trie) (dst : List Int) (q : List Char) :
    Trie.Find t dst q = (Trie.Find t [] q).map (fun tail => dst ++ tail) := by
  rw [Trie.Find, Trie.Find]
  exact find_frame t.root dst q

/-- C8 (corrected, counterexample): `Find(nil, "")` does not return every
value ever passed to `Add`: a value added under the empty key is never
stored (the suffix loop inserts nothing), so `7` is missing from the
result. -/
theorem C8_counterexample :
    Trie.Find (buildTrie [(([] : List Char), (7 : Int)),
      ((['a'] : List Char), (3 : Int))]) [] [] = some [3] ∧
    (7 : Int) ∉ ([3] : List Int) := by
  constructor
  · simp [buildTrie, Trie.Add, Trie.zero, Trie.Find, addSuffixes, node.add,
      addToChildren, commonPfx, firstRune, node.pfx, node.find, searchLoop,
      node.collectValues, collectList, List.isPrefixOf]
  · simp

/-- C8 (amended): `Find(nil, "")` completes and returns a result containing
every value that was passed to `Add` with a nonempty key (and, `Find` being
a pure function of the trie, repeated calls return the same list). -/
theorem C8_empty_query_returns_all (ops : List (List Char × Int))
    (k : List Char) (v : Int) (hmem : (k, v) ∈ ops) (hk : k ≠ []) :
    ∃ res, Trie.Find (buildTrie ops) [] [] = some res ∧ v ∈ res := by
  have h0 : 0 < k.length := List.length_pos.mpr hk
  have hocc : (k, v) ∈ node.occs (buildTrie ops).root := by
    apply (buildTrie_occs ops).mem_iff.mpr
    rw [opsOccs]
    apply List.mem_flatMap.mpr
    refine ⟨(k, v), hmem, List.mem_map.mpr ⟨k, ?_, rfl⟩⟩
    have hdz : k.drop 0 = k := List.drop_zero k
    rw [← hdz]
    exact suffixList_mem h0
  obtain ⟨cs, hcs⟩ := buildTrie_root ops
  rw [Trie.Find, hcs, node.find]
  rw [if_pos (by decide)]
  rw [collect_eq]
  refine ⟨_, rfl, ?_⟩
  rw [List.nil_append, ← hcs]
  exact List.mem_map.mpr ⟨(k, v), hocc, rfl⟩

theorem C8_witness :
    ((['b'], (4 : Int)) ∈ [((['b'] : List Char), (4 : Int))]) ∧
    ∃ res, Trie.Find (buildTrie [((['b'] : List Char), (4 : Int))]) [] [] =
      some res ∧ (4 : Int) ∈ res :=
  ⟨by simp,
    C8_empty_query_returns_all [(['b'], 4)] ['b'] 4 (by simp) (by simp)⟩

/-- C9: split contract.  When insertion reaches a node whose label's common
prefix with the incoming key fragment is strictly shorter than the label,
the restructured node's label is exactly that common prefix and its former
label remainder, values and children are relocated unmodified into a child
of the node; moreover the restructured child keeps its slot in the parent's
children sequence (the sorted-add loop replaces the child at its index). -/
theorem C9_split_contract (p : List Char) (vs : List Int)
    (cs pre post : List node) (c : node) (key subKey : List Char)
    (value : Int)
    (hs : (commonPfx p key).length < p.length)
    (hpre : ∀ c' ∈ pre, firstRune (node.pfx c') < firstRune subKey)
    (hc : firstRune (node.pfx c) = firstRune subKey) :
    node.pfx (node.add (node.mk p vs cs) key value) = commonPfx p key ∧
    node.mk (p.drop (commonPfx p key).length) vs cs ∈
      node.children (node.add (node.mk p vs cs) key value) ∧
    addToChildren (pre ++ c :: post) subKey value =
      pre ++ node.add c subKey value :: post := by
  have h12 : node.pfx (node.add (node.mk p vs cs) key value) =
      commonPfx p key ∧
      node.mk (p.drop (commonPfx p key).length) vs cs ∈
        node.children (node.add (node.mk p vs cs) key value) := by
    by_cases hk : (commonPfx p key).length = key.length
    · rw [add_eq_split_values p vs cs key value hs hk]
      exact ⟨rfl, by simp [node.children]⟩
    · by_cases hgt : firstRune (key.drop (commonPfx p key).length) <
          firstRune (p.drop (commonPfx p key).length)
      · rw [add_eq_split_before p vs cs key value hs hk hgt]
        exact ⟨rfl, by simp [node.children]⟩
      · have hne2 := commonPfx_head_ne p key hs
          (lt_of_le_of_ne (commonPfx_length_le_right p key) hk)
        have hlt := lt_of_le_of_ne (le_of_not_lt hgt) hne2
        rw [add_eq_split_after p vs cs key value hs hk hlt]
        exact ⟨rfl, by simp [node.children]⟩
  have h3 : ∀ pr : List node,
      (∀ c' ∈ pr, firstRune (node.pfx c') < firstRune subKey) →
      addToChildren (pr ++ c :: post) subKey value =
        pr ++ node.add c subKey value :: post := by
    intro pr
    induction pr with
    | nil =>
      intro _
      rw [List.nil_append, List.nil_append, addToChildren, if_pos hc]
    | cons c' pr' ihp =>
      intro hallpre
      have hlt' := hallpre c' (by simp)
      rw [List.cons_append, addToChildren, if_neg (ne_of_lt hlt'),
        if_neg (lt_asymm hlt'),
        ihp (fun x hx => hallpre x (by simp [hx])), List.cons_append]
  exact ⟨h12.1, h12.2, h3 pre hpre⟩

theorem C9_witness :
    (commonPfx ['a', 'b'] ['a', 'c']).length <
      (['a', 'b'] : List Char).length ∧
    (node.pfx (node.add (node.mk ['a', 'b'] [] []) ['a', 'c'] 7) =
        commonPfx ['a', 'b'] ['a', 'c'] ∧
      node.mk ((['a', 'b'] : List Char).drop
          (commonPfx ['a', 'b'] ['a', 'c']).length) [] [] ∈
        node.children (node.add (node.mk ['a', 'b'] [] []) ['a', 'c'] 7) ∧
      addToChildren ([] ++ node.mk ['x'] [] [] :: []) ['x'] 7 =
        [] ++ node.add (node.mk ['x'] [] []) ['x'] 7 :: []) :=
  ⟨by decide,
    C9_split_contract ['a', 'b'] [] [] [] [] (node.mk ['x'] [] [])
      ['a', 'c'] ['x'] 7 (by decide) (by simp) rfl⟩

/-- C10: implicit root invariant.  In every trie reachable from the zero
value by a sequence of `Add` calls, the root's label stays empty and the
root's values sequence stays empty — `Add` only ever inserts nonempty
suffixes, which always descend to the children, so no value is ever
appended directly to the root and the root is never split; every stored
value lives in a strict descendant. -/
theorem C10_root_invariant (ops : List (List Char × Int)) :
    node.pfx (buildTrie ops).root = [] ∧
    node.values (buildTrie ops).root = [] := by
  obtain ⟨cs, hcs⟩ := buildTrie_root ops
  rw [hcs]
  exact ⟨rfl, rfl⟩
